import Mathlib

/-
Verification development for the orbit-correction solver layer of the ocelot
repository (ocelot/cpbd/orbit_correction.py).

The development contains a shallow embedding of the relevant code:

* a list-of-rows matrix world (MatL) for the code paths that build matrices
  dynamically (MICADO column selection, Orbit.correction assembly, the
  response-matrix measurement loop), mirroring the dense numpy arrays; and

* a Mathlib Matrix world over Fin for OrbitSVD and LInfinityNorm, where the
  external numerical collaborators (numpy.linalg.svd, scipy.optimize.linprog)
  are modelled by their documented input/output contracts: the SVD factors are
  passed in together with an IsSVD hypothesis, and linprog is modelled by the
  linear program it solves, including its documented default variable bounds
  (0, None), i.e. all decision variables nonnegative.

Machine floats are modelled by exact rationals; numpy.sqrt inside MICADO is
kept as an abstract function parameter sqrtFn.
-/

namespace OrbitCorrection

open Matrix

abbrev MatL := List (List ℚ)

/-- Row i, entry j of a list matrix, with numpy dense-array convention that
all rows have equal length; out-of-range reads default to 0. -/
def getE (M : MatL) (i j : ℕ) : ℚ := (M.getD i []).getD j 0

/-- Number of rows, np.shape(M)[0]. -/
def numRowsL (M : MatL) : ℕ := M.length

/-- Number of columns, np.shape(M)[1] (length of the first row for a
rectangular array). -/
def numColsL (M : MatL) : ℕ := (M.headD []).length

/-- Rectangularity: every row has length c (always true of a numpy 2-d array). -/
def RectL (M : MatL) (c : ℕ) : Prop := ∀ r ∈ M, r.length = c

instance (M : MatL) (c : ℕ) : Decidable (RectL M c) := by
  unfold RectL; infer_instance

def zerosRow (n : ℕ) : List ℚ := List.replicate n 0

def zerosMatL (r c : ℕ) : MatL := List.replicate r (zerosRow c)

/-- np.zeros_like. -/
def zerosLike (M : MatL) : MatL := M.map (fun r => List.replicate r.length 0)

/-- np.eye k. -/
def eyeL (k : ℕ) : MatL :=
  (List.range k).map (fun i => (List.range k).map (fun j => if i = j then (1 : ℚ) else 0))

/-- np.diag of a vector. -/
def diagL (v : List ℚ) : MatL :=
  (List.range v.length).map
    (fun i => (List.range v.length).map (fun j => if i = j then v.getD i 0 else 0))

/-- Scalar times matrix. -/
def scaleMat (a : ℚ) (M : MatL) : MatL := M.map (fun r => r.map (fun x => a * x))

/-- Scalar times vector. -/
def scaleVec (a : ℚ) (v : List ℚ) : List ℚ := v.map (fun x => a * x)

/-- Dot product of two equal-length lists. -/
def dotL (r v : List ℚ) : ℚ := (List.zipWith (fun a b => a * b) r v).sum

/-- Matrix-vector product. -/
def matVecL (M : MatL) (v : List ℚ) : List ℚ := M.map (fun r => dotL r v)

/-- Componentwise difference of two equal-length vectors. -/
def subL (a b : List ℚ) : List ℚ := List.zipWith (fun x y => x - y) a b

/-- Sum of squares of the entries. -/
def sumSq (v : List ℚ) : ℚ := (v.map (fun x => x * x)).sum

/-- np.hstack of two matrices with the same number of rows. -/
def hstackL (A B : MatL) : MatL := List.zipWith (fun r s => r ++ s) A B

/-- Column j of a matrix, as a vector. -/
def getColL (M : MatL) (j : ℕ) : List ℚ := M.map (fun r => r.getD j 0)

/-- A column vector c reshaped to a one-column matrix (c.reshape(m, -1)). -/
def colAsMat (c : List ℚ) : MatL := c.map (fun x => [x])

/-- Generic two-index swap in a list, reading both entries first and then
writing them back crosswise, as MICADO.swap_columns does with column copies. -/
def lswap {α : Type} (d : α) (l : List α) (i j : ℕ) : List α :=
  (l.set i (l.getD j d)).set j (l.getD i d)

/-- MICADO.swap_columns: swap columns i and j of matrix M in place (the
returned matrix is the mutated array). -/
def swapColsL (M : MatL) (i j : ℕ) : MatL := M.map (fun r => lswap 0 r i j)

/-- Index of the first minimal element: helper carrying the running best
index/value pair, like np.argmin which returns the first occurrence. -/
def argminAuxV : List ℚ → ℕ → ℕ × ℚ → ℕ × ℚ
  | [], _, best => best
  | x :: xs, i, best => if x < best.2 then argminAuxV xs (i + 1) (i, x) else argminAuxV xs (i + 1) best

/-- np.argmin on a nonempty list (first index attaining the minimum). -/
def argminIdx (l : List ℚ) : ℕ :=
  match l with
  | [] => 0
  | x :: xs => (argminAuxV xs 1 (0, x)).1

/-- Python min of a nonempty list. -/
def minL (l : List ℚ) : ℚ :=
  match l with
  | [] => 0
  | x :: xs => xs.foldl min x

/-- Numpy slice assignment angle[:len(ap)] = ap, writing ap over the first
len(ap) entries. -/
def writeFirst (base ap : List ℚ) : List ℚ := ap.take base.length ++ base.drop ap.length

/-- Angle vector permuted back by np.argsort(mask): mask is always a
permutation of range(ncols) here, so argsort(mask)[t] is the position of the
value t inside mask. -/
def applyArgsort (angle : List ℚ) (mask : List ℕ) : List ℚ :=
  (List.range mask.length).map (fun t => angle.getD (mask.indexOf t) 0)

/-- Mutable state of the MICADO.apply loop.  resp is the (in-place permuted)
response matrix, part is resp_matrix_part, lastVec is resp_vector, residuals
is self.orb_residual, swaps records the (n, index) pairs passed to
swap_columns. -/
structure MState where
  resp : MatL
  part : MatL
  lastVec : MatL
  mask : List ℕ
  residuals : List ℚ
  angle : List ℚ
  swaps : List (ℕ × ℕ)
deriving DecidableEq

/-- One candidate evaluation in the inner loop of MICADO.apply: append the
candidate column, solve with the inner OrbitSVD solver (abstracted as inner,
which receives the weights argument the code passes along, always none), and
compute the residual norm sqrt(sum((resp_tmp . a - orbit)^2)). -/
def micadoEval (inner : MatL → List ℚ → Option MatL → List ℚ) (sqrtFn : ℚ → ℚ)
    (w : Option MatL) (orbit : List ℚ) (part1 : MatL) (c : List ℚ) : ℚ × List ℚ :=
  let tmp := hstackL part1 (colAsMat c)
  let a := inner tmp orbit w
  (sqrtFn (sumSq (subL (matVecL tmp a) orbit)), a)

/-- The list of (residual, angles) pairs built by the inner loop for i in
range(n, ncols). -/
def stepEvals (inner : MatL → List ℚ → Option MatL → List ℚ) (sqrtFn : ℚ → ℚ)
    (w : Option MatL) (orbit : List ℚ) (ncols n : ℕ) (st : MState) : List (ℚ × List ℚ) :=
  (List.range' n (ncols - n)).map
    (fun i => micadoEval inner sqrtFn w orbit (hstackL st.part st.lastVec) (getColL st.resp i))

/-- The residual list of the inner loop. -/
def stepResidual (inner : MatL → List ℚ → Option MatL → List ℚ) (sqrtFn : ℚ → ℚ)
    (w : Option MatL) (orbit : List ℚ) (ncols n : ℕ) (st : MState) : List ℚ :=
  (stepEvals inner sqrtFn w orbit ncols n st).map Prod.fst

/-- angles_part after the inner loop: the solution computed for the LAST
tested candidate (i = ncols - 1), not for the winning one. -/
def stepAnglesPart (inner : MatL → List ℚ → Option MatL → List ℚ) (sqrtFn : ℚ → ℚ)
    (w : Option MatL) (orbit : List ℚ) (ncols n : ℕ) (st : MState) : List ℚ :=
  (((stepEvals inner sqrtFn w orbit ncols n st).getLast?).map Prod.snd).getD []

/-- index = np.argmin(residual) + n. -/
def stepIndex (inner : MatL → List ℚ → Option MatL → List ℚ) (sqrtFn : ℚ → ℚ)
    (w : Option MatL) (orbit : List ℚ) (ncols n : ℕ) (st : MState) : ℕ :=
  argminIdx (stepResidual inner sqrtFn w orbit ncols n st) + n

/-- One iteration of the outer loop of MICADO.apply at step n.  Returns the
new state and whether the break was taken.  resp_vector is copied from the
matrix before the swap, and angle is written (from angles_part) only when the
break fires, both exactly as in the code. -/
def micadoStep (inner : MatL → List ℚ → Option MatL → List ℚ) (sqrtFn : ℚ → ℚ)
    (epsKsi : ℚ) (w : Option MatL) (orbit : List ℚ) (ncols n : ℕ) (st : MState) :
    MState × Bool :=
  let index := stepIndex inner sqrtFn w orbit ncols n st
  let st1 : MState :=
    { resp := swapColsL st.resp n index
      part := hstackL st.part st.lastVec
      lastVec := colAsMat (getColL st.resp index)
      mask := lswap 0 st.mask n index
      residuals := st.residuals ++ [minL (stepResidual inner sqrtFn w orbit ncols n st)]
      angle := st.angle
      swaps := st.swaps ++ [(n, index)] }
  if st1.residuals.length ≤ 1 then (st1, false)
  else if st1.residuals.getD (st1.residuals.length - 2) 0 -
            st1.residuals.getD (st1.residuals.length - 1) 0 < epsKsi then
    ({ st1 with angle := writeFirst st.angle (stepAnglesPart inner sqrtFn w orbit ncols n st) },
      true)
  else (st1, false)

/-- The outer loop for n in range(ncols), stopping early on break. -/
def micadoLoop (inner : MatL → List ℚ → Option MatL → List ℚ) (sqrtFn : ℚ → ℚ)
    (epsKsi : ℚ) (w : Option MatL) (orbit : List ℚ) (ncols : ℕ) :
    List ℕ → MState → MState
  | [], st => st
  | n :: rest, st =>
    let r := micadoStep inner sqrtFn epsKsi w orbit ncols n st
    cond r.2 r.1 (micadoLoop inner sqrtFn epsKsi w orbit ncols rest r.1)

/-- Initial MICADO loop state: mask = arange(ncols), angle = zeros(ncols),
resp_matrix_part and resp_vector empty (bpm_num x 0). -/
def micadoInit (resp : MatL) : MState :=
  { resp := resp
    part := List.replicate resp.length []
    lastVec := List.replicate resp.length []
    mask := List.range (numColsL resp)
    residuals := []
    angle := List.replicate (numColsL resp) 0
    swaps := [] }

/-- The complete run of the MICADO.apply loop body. -/
def micadoRun (inner : MatL → List ℚ → Option MatL → List ℚ) (sqrtFn : ℚ → ℚ)
    (epsKsi : ℚ) (w : Option MatL) (resp : MatL) (orbit : List ℚ) : MState :=
  micadoLoop inner sqrtFn epsKsi w orbit (numColsL resp) (List.range (numColsL resp))
    (micadoInit resp)

/-- MICADO.apply: the method body discards its weights argument (weights =
None on entry) and returns angle[np.argsort(mask)].  The final (permuted)
matrix and the mask live in micadoRun's result; the caller's array object is
micadoRun(...).resp after the call. -/
def micadoApply (inner : MatL → List ℚ → Option MatL → List ℚ) (sqrtFn : ℚ → ℚ)
    (epsKsi : ℚ) (resp : MatL) (orbit : List ℚ) (weights : Option MatL) : List ℚ :=
  let st := micadoRun inner sqrtFn epsKsi none resp orbit
  applyArgsort st.angle st.mask

/-! Orbit.correction: assembly of the combined orbit + dispersion +
regularization system, weighting, solver dispatch and write-back to the
actuator angles.  The extracted response matrices (ResponseMatrix.extract
restricted to the full current monitor/actuator lists) enter as plain dense
matrices RM0 and DRM0. -/

/-- One monitor with the per-session fields Orbit.create_bpms initializes and
correction reads. -/
structure BPMe where
  x : ℚ
  y : ℚ
  x_ref : ℚ
  y_ref : ℚ
  Dx : ℚ
  Dy : ℚ
  Dx_des : ℚ
  Dy_des : ℚ
  weight : ℚ
deriving DecidableEq

/-- Orbit.get_orbit: the length-2m vector with orbit[i] = x - x_ref and
orbit[i+m] = y - y_ref. -/
def get_orbit (bpms : List BPMe) : List ℚ :=
  bpms.map (fun b => b.x - b.x_ref) ++ bpms.map (fun b => b.y - b.y_ref)

/-- Orbit.get_dispersion. -/
def get_dispersion (bpms : List BPMe) : List ℚ :=
  bpms.map (fun b => b.Dx - b.Dx_des) ++ bpms.map (fun b => b.Dy - b.Dy_des)

/-- Orbit.combine_matrices: zero matrix of the combined shape with mat1 in the
top-left and mat2 in the bottom-right block. -/
def combine_matrices (A B : MatL) : MatL :=
  A.map (fun r => r ++ zerosRow (numColsL B)) ++ B.map (fun r => zerosRow (numColsL A) ++ r)

/-- scipy.linalg.block_diag of three blocks. -/
def blockDiag3 (A B C : MatL) : MatL := combine_matrices (combine_matrices A B) C

/-- orbit = (1 - alpha) * self.get_orbit(). -/
def correctionOrbit (bpms : List BPMe) (alpha : ℚ) : List ℚ :=
  scaleVec (1 - alpha) (get_orbit bpms)

/-- disp = alpha * get_dispersion() when alpha is nonzero, else
alpha * np.array(orbit) (a zero vector of the orbit length). -/
def correctionDisp (bpms : List BPMe) (alpha : ℚ) : List ℚ :=
  if alpha ≠ 0 then scaleVec alpha (get_dispersion bpms)
  else scaleVec alpha (correctionOrbit bpms alpha)

/-- RM = (1 - alpha) * response_matrix.extract(...). -/
def correctionRM (RM0 : MatL) (alpha : ℚ) : MatL := scaleMat (1 - alpha) RM0

/-- DRM = alpha * disp_response_matrix.extract(...) when a dispersion response
matrix exists, else np.zeros_like(RM). -/
def correctionDRM (RM : MatL) (DRM0 : Option MatL) (alpha : ℚ) : MatL :=
  match DRM0 with
  | some D => scaleMat alpha D
  | none => zerosLike RM

/-- b_mat = beta * np.eye(np.shape(DRM)[0]): the regularization block is a
square block sized by the number of ROWS of DRM. -/
def correctionBmat (beta : ℚ) (DRM : MatL) : MatL := scaleMat beta (eyeL DRM.length)

/-- b_orbit = np.zeros(np.shape(DRM)[0]). -/
def correctionBorbit (DRM : MatL) : List ℚ := List.replicate DRM.length 0

/-- rmatrix = block_diag(RM, DRM, b_mat). -/
def correctionRmatrix (RM0 : MatL) (DRM0 : Option MatL) (alpha beta : ℚ) : MatL :=
  let RM := correctionRM RM0 alpha
  let DRM := correctionDRM RM DRM0 alpha
  blockDiag3 RM DRM (correctionBmat beta DRM)

/-- orbit = np.append(orbit, [disp, b_orbit]). -/
def correctionVector (bpms : List BPMe) (RM0 : MatL) (DRM0 : Option MatL)
    (alpha : ℚ) : List ℚ :=
  let RM := correctionRM RM0 alpha
  let DRM := correctionDRM RM DRM0 alpha
  correctionOrbit bpms alpha ++ correctionDisp bpms alpha ++ correctionBorbit DRM

/-- Number of columns of the dispersion block: those of the dispersion
response matrix when one is configured, else (np.zeros_like(RM)) those of the
orbit response matrix. -/
def dispColsOf (RM0 : MatL) (DRM0 : Option MatL) : ℕ :=
  match DRM0 with
  | some D => numColsL D
  | none => numColsL RM0

/-- bpm_weights_diag: diag(append(w, [w, w, w])) combined block-diagonally
with diag(append(w, [w])). -/
def correctionWeights (bpms : List BPMe) : MatL :=
  let w := bpms.map (fun b => b.weight)
  combine_matrices (diagL (w ++ (w ++ w ++ w))) (diagL (w ++ w))

/-- Per-actuator write-back: cor.angle -= (1 - alpha) * angle[i] + alpha *
angle[ncor + i], over the combined hcors ++ vcors list (given by its current
angles), with ncor = len(cor_list). -/
def correctionAngles (corAngles : List ℚ) (alpha : ℚ) (a : List ℚ) : List ℚ :=
  (List.range corAngles.length).map
    (fun i => corAngles.getD i 0 -
      ((1 - alpha) * a.getD i 0 + alpha * a.getD (corAngles.length + i) 0))

/-- The correction phase of Orbit.correction, with the configured solver as a
function argument (resp_matrix, orbit, weights) -> angle; returns the updated
actuator angles. -/
def correctionRun (bpms : List BPMe) (corAngles : List ℚ) (RM0 : MatL)
    (DRM0 : Option MatL) (alpha beta : ℚ)
    (solver : MatL → List ℚ → MatL → List ℚ) : List ℚ :=
  let a := solver (correctionRmatrix RM0 DRM0 alpha beta)
    (correctionVector bpms RM0 DRM0 alpha) (correctionWeights bpms)
  correctionAngles corAngles alpha a

/-- The update rule of the claim read literally: form
Delta = -((1-alpha) a_orbit + alpha a_disp) and subtract Delta from the
current angle. -/
def claimAngleUpdate (old aorb adisp alpha : ℚ) : ℚ :=
  old - (-((1 - alpha) * aorb + alpha * adisp))

/-! measure_response_matrix with change_corrector / restore_corrector.  The
lattice is the sequence of elements carrying an id, the mutable deflection
angle and the perturbation step dI.  The external tracking collaborator
(orbit.read_virtual_orbit, whose definition is not part of this repository
snapshot) is modelled from the spec: a TrackingEngine call that either
returns the updated monitor readings or raises; it is abstracted as a
function from the call index to Option (list of (x, y) readings), none
meaning the call raises and the exception propagates. -/

structure LatElem where
  eid : ℕ
  angle : ℚ
  dI : ℚ
deriving DecidableEq

/-- Modelled from the spec: orbit.read_virtual_orbit (and the TrackingEngine
behind it) is called by measure_response_matrix but is not defined in this
repository snapshot; per the spec it returns updated monitor readings given
the current lattice, and solver or tracking errors may propagate out of it.
It is modelled as an oracle from the call index to the monitor (x, y)
readings, with none meaning the call raises. -/
abbrev TrackOracle := ℕ → Option (List (ℚ × ℚ))

/-- change_corrector: elem.angle += corrector.dI for every lattice element
with the corrector's id. -/
def change_corrector (c : LatElem) (lat : List LatElem) : List LatElem :=
  lat.map (fun e => if e.eid = c.eid then { e with angle := e.angle + c.dI } else e)

/-- restore_corrector: elem.angle -= corrector.dI for every lattice element
with the corrector's id. -/
def restore_corrector (c : LatElem) (lat : List LatElem) : List LatElem :=
  lat.map (fun e => if e.eid = c.eid then { e with angle := e.angle - c.dI } else e)

/-- One finite-difference column (reading_after - reading_before) / step for
one corrector, given the readings rd after the perturbation and the reference
readings bpms0 copied before the loop; x-differences stacked over
y-differences, as real_resp[j, ix] and real_resp[j+m, ix]. -/
def fdColumn (bpms0 rd : List (ℚ × ℚ)) (dI : ℚ) : List ℚ :=
  (List.zipWith (fun p0 p => (p.1 - p0.1) / dI) bpms0 rd) ++
    (List.zipWith (fun p0 p => (p.2 - p0.2) / dI) bpms0 rd)

/-- The perturb / measure / restore loop over one corrector list inside
measure_response_matrix.  Each iteration mutates the lattice with
change_corrector, calls the tracking collaborator (call index k), and only
then restores; if the tracking call raises, the exception propagates with the
lattice still perturbed.  Returns (columns or propagated error, next call
index, lattice state at exit). -/
def measLoop (track : TrackOracle) (bpms0 : List (ℚ × ℚ)) :
    List LatElem → ℕ → List LatElem → Option (List (List ℚ)) × ℕ × List LatElem
  | [], k, lat => (some [], k, lat)
  | c :: rest, k, lat =>
    let lat1 := change_corrector c lat
    match track k with
    | none => (none, k, lat1)
    | some rd =>
      match measLoop track bpms0 rest (k + 1) (restore_corrector c lat1) with
      | (cols, k2, lat2) => (cols.map (fun cs => fdColumn bpms0 rd c.dI :: cs), k2, lat2)

/-- measure_response_matrix: initial read (call 0), then the horizontal and
vertical corrector loops.  Result: (the list of response columns, or none if
a tracking call raised) together with the lattice state on exit. -/
def measureRM (track : TrackOracle) (hcors vcors : List LatElem)
    (lat : List LatElem) : Option (List (List ℚ)) × List LatElem :=
  match track 0 with
  | none => (none, lat)
  | some rd0 =>
    match measLoop track rd0 hcors 1 lat with
    | (none, _, lat1) => (none, lat1)
    | (some colsH, k1, lat1) =>
      match measLoop track rd0 vcors k1 lat1 with
      | (cols, _, lat2) => (cols.map (fun colsV => colsH ++ colsV), lat2)

/-! OrbitSVD.apply over Mathlib matrices.  numpy.linalg.svd (an external
collaborator) returns, for an m x n input, U (m x m orthogonal), s (the
min(m, n) singular values, nonnegative and sorted descending) and Vt (n x n
orthogonal); the factorization is passed to the embedding as data, with the
numpy output contract available as the IsSVD hypothesis. -/

/-- Threshold selector of the code: epsilon_x for singular-value indices
i < floor(k / 2) and epsilon_y otherwise, where k is the length of s. -/
def epsAt (epsX epsY : ℚ) (k i : ℕ) : ℚ := if i < k / 2 then epsX else epsY

/-- max(s) of a nonempty singular value list (python max). -/
def sMaxQ {k : ℕ} (s : Fin k → ℚ) : ℚ :=
  if h : 0 < k then Finset.univ.sup' ⟨⟨0, h⟩, Finset.mem_univ _⟩ s else 0

/-- s_inv as built by OrbitSVD.apply: s_inv[i] = 0 when
s[i] <= max(s) * epsilon with the index split taken at len(s)/2 =
floor(min(m, n)/2), else 1/s[i]. -/
def sInvCode (m n : ℕ) (epsX epsY : ℚ) (s : Fin (min m n) → ℚ) : Fin (min m n) → ℚ :=
  fun i => if s i ≤ sMaxQ s * epsAt epsX epsY (min m n) (i : ℕ) then 0 else (s i)⁻¹

/-- s_inv as described by the claim: identical except the index split is
taken at floor(n / 2), n the number of matrix columns. -/
def sInvClaim (m n : ℕ) (epsX epsY : ℚ) (s : Fin (min m n) → ℚ) : Fin (min m n) → ℚ :=
  fun i => if s i ≤ sMaxQ s * epsAt epsX epsY n (i : ℕ) then 0 else (s i)⁻¹

/-- The m x n rectangular diagonal matrix carrying s, as U*S*Vt factors it. -/
def svdDiag {m n : ℕ} (s : Fin (min m n) → ℚ) : Matrix (Fin m) (Fin n) ℚ :=
  Matrix.of fun i j =>
    if h : (i : ℕ) = (j : ℕ) ∧ (i : ℕ) < min m n then s ⟨i, h.2⟩ else 0

/-- Sinv after the code fills the diagonal of an m x n zero block and
transposes it: the n x m matrix with sv on the leading diagonal. -/
def sinvTMat {m n : ℕ} (sv : Fin (min m n) → ℚ) : Matrix (Fin n) (Fin m) ℚ :=
  Matrix.of fun i j =>
    if h : (i : ℕ) = (j : ℕ) ∧ (i : ℕ) < min m n then sv ⟨i, h.2⟩ else 0

/-- The numpy svd output contract for A = U * S * Vt. -/
def IsSVD {m n : ℕ} (A : Matrix (Fin m) (Fin n) ℚ) (U : Matrix (Fin m) (Fin m) ℚ)
    (s : Fin (min m n) → ℚ) (Vt : Matrix (Fin n) (Fin n) ℚ) : Prop :=
  A = U * svdDiag s * Vt ∧
  U * U.transpose = 1 ∧ U.transpose * U = 1 ∧
  Vt * Vt.transpose = 1 ∧ Vt.transpose * Vt = 1 ∧
  (∀ i, 0 ≤ s i) ∧ (∀ i j, i ≤ j → s j ≤ s i)

instance {m n : ℕ} (A : Matrix (Fin m) (Fin n) ℚ) (U : Matrix (Fin m) (Fin m) ℚ)
    (s : Fin (min m n) → ℚ) (Vt : Matrix (Fin n) (Fin n) ℚ) :
    Decidable (IsSVD A U s Vt) := by
  unfold IsSVD; infer_instance

/-- Tail of OrbitSVD.apply after the svd call: angle =
(V^T . (Sinv^T . U^T)) . misallign, with the code's s_inv. -/
def orbitSVDApply {m n : ℕ} (epsX epsY : ℚ) (U : Matrix (Fin m) (Fin m) ℚ)
    (s : Fin (min m n) → ℚ) (Vt : Matrix (Fin n) (Fin n) ℚ) (mis : Fin m → ℚ) :
    Fin n → ℚ :=
  (Vt.transpose * (sinvTMat (sInvCode m n epsX epsY s) * U.transpose)) *ᵥ mis

/-- Same formula with the claim's index split floor(n/2). -/
def orbitClaimApply {m n : ℕ} (epsX epsY : ℚ) (U : Matrix (Fin m) (Fin m) ℚ)
    (s : Fin (min m n) → ℚ) (Vt : Matrix (Fin n) (Fin n) ℚ) (mis : Fin m → ℚ) :
    Fin n → ℚ :=
  (Vt.transpose * (sinvTMat (sInvClaim m n epsX epsY s) * U.transpose)) *ᵥ mis

/-- OrbitSVD.apply including the weighting prologue: weights default to the
identity when omitted, the error vector is premultiplied by W, and U, s, Vt
are the svd factors of W * M. -/
def orbitSVDRun {m n : ℕ} (epsX epsY : ℚ) (W : Option (Matrix (Fin m) (Fin m) ℚ))
    (U : Matrix (Fin m) (Fin m) ℚ) (s : Fin (min m n) → ℚ)
    (Vt : Matrix (Fin n) (Fin n) ℚ) (e : Fin m → ℚ) : Fin n → ℚ :=
  orbitSVDApply epsX epsY U s Vt ((W.getD 1) *ᵥ e)

/-- The claim-side run. -/
def orbitClaimRun {m n : ℕ} (epsX epsY : ℚ) (W : Option (Matrix (Fin m) (Fin m) ℚ))
    (U : Matrix (Fin m) (Fin m) ℚ) (s : Fin (min m n) → ℚ)
    (Vt : Matrix (Fin n) (Fin n) ℚ) (e : Fin m → ℚ) : Fin n → ℚ :=
  orbitClaimApply epsX epsY U s Vt ((W.getD 1) *ᵥ e)

/-- Number of singular values retained (not zeroed) by the code's threshold
rule. -/
def retainedCount (m n : ℕ) (epsX epsY : ℚ) (s : Fin (min m n) → ℚ) : ℕ :=
  (Finset.univ.filter
    (fun i : Fin (min m n) =>
      ¬ s i ≤ sMaxQ s * epsAt epsX epsY (min m n) (i : ℕ))).card

/-- Squared Euclidean norm of a vector. -/
def normSq {n : ℕ} (v : Fin n → ℚ) : ℚ := ∑ i, v i * v i

/-- Conversion of a Fin-indexed matrix to the list world. -/
def matToLists {m n : ℕ} (A : Matrix (Fin m) (Fin n) ℚ) : MatL :=
  (List.finRange m).map (fun i => (List.finRange n).map (fun j => A i j))

/-- Conversion of a Fin-indexed vector to the list world. -/
def vecToList {n : ℕ} (v : Fin n → ℚ) : List ℚ := (List.finRange n).map v

/-! LInfinityNorm.apply.  The method builds f = (0, ..., 0, 1),
Ane = vstack(hstack(M, -1), hstack(-M, -1)), bne = (e, -e) and calls
scipy.optimize.linprog(f, A_ub=Ane, b_ub=bne).  linprog (external
collaborator) is modelled by its documented contract: it minimizes f . x
subject to Ane . x <= bne AND the default variable bounds (0, None), i.e.
every decision variable nonnegative.  The method returns res["x"][:-1]. -/

/-- The objective vector f: zeros with a final 1. -/
def lpObj (n : ℕ) : Fin n ⊕ Fin 1 → ℚ := Sum.elim 0 1

/-- Ane: the stacked constraint matrix [[M, -1], [-M, -1]]. -/
def lpMatrix {m n : ℕ} (M : Matrix (Fin m) (Fin n) ℚ) :
    Matrix (Fin m ⊕ Fin m) (Fin n ⊕ Fin 1) ℚ :=
  Matrix.fromBlocks M (Matrix.of fun _ _ => -1) (-M) (Matrix.of fun _ _ => -1)

/-- bne: e stacked over -e. -/
def lpB {m : ℕ} (e : Fin m → ℚ) : Fin m ⊕ Fin m → ℚ := Sum.elim e (-e)

/-- Feasibility for the program linprog actually solves: inequality
constraints plus the default nonnegativity bounds on every variable. -/
def lpFeasible {m n : ℕ} (M : Matrix (Fin m) (Fin n) ℚ) (e : Fin m → ℚ)
    (x : Fin n ⊕ Fin 1 → ℚ) : Prop :=
  (∀ j, 0 ≤ x j) ∧ (∀ i, (lpMatrix M *ᵥ x) i ≤ lpB e i)

instance {m n : ℕ} (M : Matrix (Fin m) (Fin n) ℚ) (e : Fin m → ℚ)
    (x : Fin n ⊕ Fin 1 → ℚ) : Decidable (lpFeasible M e x) := by
  unfold lpFeasible; infer_instance

/-- Optimality for the program linprog actually solves. -/
def lpOptimal {m n : ℕ} (M : Matrix (Fin m) (Fin n) ℚ) (e : Fin m → ℚ)
    (x : Fin n ⊕ Fin 1 → ℚ) : Prop :=
  lpFeasible M e x ∧ ∀ y, lpFeasible M e y → lpObj n ⬝ᵥ x ≤ lpObj n ⬝ᵥ y

/-- res["x"][:-1]: the first n components of the solution. -/
def lInfReturn {n : ℕ} (x : Fin n ⊕ Fin 1 → ℚ) : Fin n → ℚ := fun j => x (Sum.inl j)

/-- The residual vector M . a - e. -/
def resid {m n : ℕ} (M : Matrix (Fin m) (Fin n) ℚ) (e : Fin m → ℚ)
    (a : Fin n → ℚ) : Fin m → ℚ :=
  M *ᵥ a - e

/-- max_i |v i| (0 for an empty vector). -/
def maxAbs {m : ℕ} (v : Fin m → ℚ) : ℚ :=
  if h : 0 < m then Finset.univ.sup' ⟨⟨0, h⟩, Finset.mem_univ _⟩ (fun i => |v i|) else 0





theorem set_getD_self {α : Type} (d : α) : ∀ (l : List α) (i : ℕ), l.set i (l.getD i d) = l
  | [], _ => rfl
  | _ :: _, 0 => rfl
  | x :: xs, i + 1 => by
    simp only [List.getD_cons_succ, List.set_cons_succ]
    rw [set_getD_self d xs i]

theorem lswap_self {α : Type} (d : α) (l : List α) (i : ℕ) : lswap d l i i = l := by
  unfold lswap
  rw [List.set_set, set_getD_self]

theorem getD_set_ne {α : Type} (d : α) (l : List α) {i j : ℕ} (h : i ≠ j) (a : α) :
    (l.set i a).getD j d = l.getD j d := by
  simp [List.getD_eq_getElem?_getD, List.getElem?_set_ne h]

theorem getD_set_self {α : Type} (d : α) (l : List α) {i : ℕ} (h : i < l.length) (a : α) :
    (l.set i a).getD i d = a := by
  simp [List.getD_eq_getElem?_getD, List.getElem?_set_self h]

theorem lswap_getD_outside {α : Type} (d : α) (l : List α) {i j k : ℕ}
    (hk1 : k ≠ i) (hk2 : k ≠ j) : (lswap d l i j).getD k d = l.getD k d := by
  unfold lswap
  rw [getD_set_ne d _ (Ne.symm hk2), getD_set_ne d _ (Ne.symm hk1)]

theorem lswap_getD_fst {α : Type} (d : α) (l : List α) {i j : ℕ}
    (hij : i ≠ j) (hi : i < l.length) : (lswap d l i j).getD i d = l.getD j d := by
  unfold lswap
  rw [getD_set_ne d _ (Ne.symm hij), getD_set_self d l hi]

theorem getColL_swapColsL_outside (M : MatL) {i j k : ℕ} (h1 : k ≠ i) (h2 : k ≠ j) :
    getColL (swapColsL M i j) k = getColL M k := by
  unfold getColL swapColsL
  rw [List.map_map]
  exact List.map_congr_left (fun r _ => lswap_getD_outside 0 r h1 h2)

theorem getColL_swapColsL_fst (M : MatL) {c i j : ℕ} (hr : RectL M c)
    (hij : i ≠ j) (hi : i < c) : getColL (swapColsL M i j) i = getColL M j := by
  unfold getColL swapColsL
  rw [List.map_map]
  refine List.map_congr_left (fun r hrm => ?_)
  exact lswap_getD_fst 0 r hij (by rw [hr r hrm]; exact hi)

theorem RectL_swapColsL {M : MatL} {c : ℕ} (hr : RectL M c) (i j : ℕ) :
    RectL (swapColsL M i j) c := by
  intro r hrm
  obtain ⟨r0, hr0, rfl⟩ := List.mem_map.1 hrm
  simp [lswap, hr r0 hr0]

theorem argminAuxV_spec : ∀ (xs : List ℚ) (i0 : ℕ) (b : ℕ × ℚ),
    argminAuxV xs i0 b = b ∨
    ∃ j, j < xs.length ∧ argminAuxV xs i0 b = (i0 + j, xs.getD j 0) ∧ xs.getD j 0 < b.2
  | [], _, _ => Or.inl rfl
  | x :: xs, i0, b => by
    unfold argminAuxV
    by_cases hx : x < b.2
    · simp only [if_pos hx]
      rcases argminAuxV_spec xs (i0 + 1) (i0, x) with h | ⟨j, hj, heq, hlt⟩
      · right
        exact ⟨0, by simp, by simpa using h, by simpa using hx⟩
      · right
        refine ⟨j + 1, by simpa using Nat.succ_lt_succ hj, ?_, ?_⟩
        · rw [heq]
          simp only [List.getD_cons_succ]
          congr 1
          omega
        · simp only [List.getD_cons_succ]
          exact lt_trans hlt hx
    · simp only [if_neg hx]
      rcases argminAuxV_spec xs (i0 + 1) b with h | ⟨j, hj, heq, hlt⟩
      · exact Or.inl h
      · right
        refine ⟨j + 1, by simpa using Nat.succ_lt_succ hj, ?_, ?_⟩
        · rw [heq]
          simp only [List.getD_cons_succ]
          congr 1
          omega
        · simpa only [List.getD_cons_succ] using hlt

theorem argminIdx_spec (x : ℚ) (xs : List ℚ) :
    argminIdx (x :: xs) = 0 ∨
    (argminIdx (x :: xs) < (x :: xs).length ∧ (x :: xs).getD (argminIdx (x :: xs)) 0 < x) := by
  have e : argminIdx (x :: xs) = (argminAuxV xs 1 (0, x)).1 := rfl
  rw [e]
  rcases argminAuxV_spec xs 1 (0, x) with h | ⟨j, hj, heq, hlt⟩
  · left
    rw [h]
  · right
    rw [heq]
    refine ⟨by simp only [List.length_cons]; omega, ?_⟩
    simpa only [Nat.add_comm 1 j, List.getD_cons_succ] using hlt

theorem argminIdx_lt_length (l : List ℚ) (h : 0 < l.length) : argminIdx l < l.length := by
  cases l with
  | nil => simp at h
  | cons x xs =>
    rcases argminIdx_spec x xs with h0 | ⟨h1, _⟩
    · rw [h0]; exact h
    · exact h1


theorem swapColsL_self (M : MatL) (i : ℕ) : swapColsL M i i = M := by
  unfold swapColsL
  have : ∀ r : List ℚ, lswap 0 r i i = r := fun r => lswap_self 0 r i
  simp [this]

theorem micadoStep_resp (inner : MatL → List ℚ → Option MatL → List ℚ) (sqrtFn : ℚ → ℚ)
    (epsKsi : ℚ) (w : Option MatL) (orbit : List ℚ) (ncols n : ℕ) (st : MState) :
    (micadoStep inner sqrtFn epsKsi w orbit ncols n st).1.resp =
      swapColsL st.resp n (stepIndex inner sqrtFn w orbit ncols n st) := by
  unfold micadoStep
  dsimp only
  split
  · rfl
  · split
    · rfl
    · rfl

theorem micadoStep_swaps (inner : MatL → List ℚ → Option MatL → List ℚ) (sqrtFn : ℚ → ℚ)
    (epsKsi : ℚ) (w : Option MatL) (orbit : List ℚ) (ncols n : ℕ) (st : MState) :
    (micadoStep inner sqrtFn epsKsi w orbit ncols n st).1.swaps =
      st.swaps ++ [(n, stepIndex inner sqrtFn w orbit ncols n st)] := by
  unfold micadoStep
  dsimp only
  split
  · rfl
  · split
    · rfl
    · rfl

theorem stepResidual_length (inner : MatL → List ℚ → Option MatL → List ℚ) (sqrtFn : ℚ → ℚ)
    (w : Option MatL) (orbit : List ℚ) (ncols n : ℕ) (st : MState) :
    (stepResidual inner sqrtFn w orbit ncols n st).length = ncols - n := by
  simp [stepResidual, stepEvals]

theorem stepResidual_getD (inner : MatL → List ℚ → Option MatL → List ℚ) (sqrtFn : ℚ → ℚ)
    (w : Option MatL) (orbit : List ℚ) (ncols n : ℕ) (st : MState) (j : ℕ)
    (hj : j < ncols - n) :
    (stepResidual inner sqrtFn w orbit ncols n st).getD j 0 =
      (micadoEval inner sqrtFn w orbit (hstackL st.part st.lastVec)
        (getColL st.resp (n + j))).1 := by
  unfold stepResidual stepEvals
  rw [List.getD_eq_getElem?_getD, List.getElem?_map, List.getElem?_map,
    List.getElem?_range' _ _ hj]
  simp

theorem stepIndex_lt (inner : MatL → List ℚ → Option MatL → List ℚ) (sqrtFn : ℚ → ℚ)
    (w : Option MatL) (orbit : List ℚ) (ncols n : ℕ) (st : MState) (hn : n < ncols) :
    stepIndex inner sqrtFn w orbit ncols n st < ncols := by
  unfold stepIndex
  have h1 : argminIdx (stepResidual inner sqrtFn w orbit ncols n st) < ncols - n := by
    rw [← stepResidual_length inner sqrtFn w orbit ncols n st]
    exact argminIdx_lt_length _ (by rw [stepResidual_length]; omega)
  omega

theorem stepIndex_ge (inner : MatL → List ℚ → Option MatL → List ℚ) (sqrtFn : ℚ → ℚ)
    (w : Option MatL) (orbit : List ℚ) (ncols n : ℕ) (st : MState) :
    n ≤ stepIndex inner sqrtFn w orbit ncols n st := by
  unfold stepIndex
  omega

theorem stepIndex_col_ne (inner : MatL → List ℚ → Option MatL → List ℚ) (sqrtFn : ℚ → ℚ)
    (w : Option MatL) (orbit : List ℚ) (ncols n : ℕ) (st : MState) (hn : n < ncols)
    (hne : stepIndex inner sqrtFn w orbit ncols n st ≠ n) :
    getColL st.resp (stepIndex inner sqrtFn w orbit ncols n st) ≠ getColL st.resp n := by
  set res := stepResidual inner sqrtFn w orbit ncols n st with hres
  have hlen : res.length = ncols - n := stepResidual_length inner sqrtFn w orbit ncols n st
  have hpos : 0 < res.length := by omega
  obtain ⟨x, xs, hcons⟩ := List.exists_cons_of_ne_nil (List.ne_nil_of_length_pos hpos)
  have hargne : argminIdx res ≠ 0 := by
    intro h0
    refine hne ?_
    unfold stepIndex
    rw [← hres, h0]
    omega
  have hlt : res.getD (argminIdx res) 0 < res.getD 0 0 := by
    rw [hcons] at hargne ⊢
    rcases argminIdx_spec x xs with h0 | ⟨_, hlt⟩
    · exact absurd h0 hargne
    · simpa using hlt
  have hidx : stepIndex inner sqrtFn w orbit ncols n st = n + argminIdx res := by
    unfold stepIndex
    rw [← hres]
    omega
  have harg_lt : argminIdx res < ncols - n := by
    rw [← hlen]
    exact argminIdx_lt_length _ hpos
  have hv1 : res.getD (argminIdx res) 0 =
      (micadoEval inner sqrtFn w orbit (hstackL st.part st.lastVec)
        (getColL st.resp (n + argminIdx res))).1 :=
    stepResidual_getD inner sqrtFn w orbit ncols n st _ harg_lt
  have hv0 : res.getD 0 0 =
      (micadoEval inner sqrtFn w orbit (hstackL st.part st.lastVec)
        (getColL st.resp n)).1 := by
    have := stepResidual_getD inner sqrtFn w orbit ncols n st 0 (by omega)
    simpa using this
  intro hcol
  rw [hidx] at hcol
  rw [hv1, hv0, hcol] at hlt
  exact lt_irrefl _ hlt

theorem micadoLoop_cons (inner : MatL → List ℚ → Option MatL → List ℚ) (sqrtFn : ℚ → ℚ)
    (epsKsi : ℚ) (w : Option MatL) (orbit : List ℚ) (ncols n : ℕ) (rest : List ℕ)
    (st : MState) :
    micadoLoop inner sqrtFn epsKsi w orbit ncols (n :: rest) st =
      cond (micadoStep inner sqrtFn epsKsi w orbit ncols n st).2
        (micadoStep inner sqrtFn epsKsi w orbit ncols n st).1
        (micadoLoop inner sqrtFn epsKsi w orbit ncols rest
          (micadoStep inner sqrtFn epsKsi w orbit ncols n st).1) := rfl

theorem micadoLoop_preserves_cols (inner : MatL → List ℚ → Option MatL → List ℚ)
    (sqrtFn : ℚ → ℚ) (epsKsi : ℚ) (w : Option MatL) (orbit : List ℚ) (ncols : ℕ) :
    ∀ (len n0 : ℕ) (st : MState) (s : ℕ), s < n0 →
    getColL ((micadoLoop inner sqrtFn epsKsi w orbit ncols (List.range' n0 len) st).resp) s =
      getColL st.resp s := by
  intro len
  induction len with
  | zero => intro n0 st s _; rfl
  | succ len ih =>
    intro n0 st s hs
    rw [List.range'_succ]
    have hresp := micadoStep_resp inner sqrtFn epsKsi w orbit ncols n0 st
    have hge := stepIndex_ge inner sqrtFn w orbit ncols n0 st
    have hcol : getColL (micadoStep inner sqrtFn epsKsi w orbit ncols n0 st).1.resp s =
        getColL st.resp s := by
      rw [hresp]
      exact getColL_swapColsL_outside _ (by omega) (by omega)
    rw [micadoLoop_cons]
    cases hb : (micadoStep inner sqrtFn epsKsi w orbit ncols n0 st).2 with
    | true => simpa using hcol
    | false =>
      rw [cond_false, ih (n0 + 1) _ s (by omega)]
      exact hcol

theorem micadoLoop_mutates (inner : MatL → List ℚ → Option MatL → List ℚ)
    (sqrtFn : ℚ → ℚ) (epsKsi : ℚ) (w : Option MatL) (orbit : List ℚ) (ncols : ℕ) :
    ∀ (len n0 : ℕ) (st : MState), RectL st.resp ncols → n0 + len ≤ ncols →
    (∀ p ∈ st.swaps, p.1 = p.2) →
    (∃ p ∈ (micadoLoop inner sqrtFn epsKsi w orbit ncols (List.range' n0 len) st).swaps,
      p.1 ≠ p.2) →
    (micadoLoop inner sqrtFn epsKsi w orbit ncols (List.range' n0 len) st).resp ≠ st.resp := by
  intro len
  induction len with
  | zero =>
    intro n0 st _ _ hall hex
    obtain ⟨p, hp, hpne⟩ := hex
    exact absurd (hall p hp) hpne
  | succ len ih =>
    intro n0 st hrect hle hall hex
    rw [List.range'_succ] at hex ⊢
    have hn0 : n0 < ncols := by omega
    set idx := stepIndex inner sqrtFn w orbit ncols n0 st with hidxdef
    have hresp := micadoStep_resp inner sqrtFn epsKsi w orbit ncols n0 st
    have hswaps := micadoStep_swaps inner sqrtFn epsKsi w orbit ncols n0 st
    have hge := stepIndex_ge inner sqrtFn w orbit ncols n0 st
    have hlt := stepIndex_lt inner sqrtFn w orbit ncols n0 st hn0
    by_cases hne : idx = n0
    · -- trivial swap: the state matrix is unchanged
      have hsame : (micadoStep inner sqrtFn epsKsi w orbit ncols n0 st).1.resp = st.resp := by
        rw [hresp, ← hidxdef, hne, swapColsL_self]
      have hall1 : ∀ p ∈ (micadoStep inner sqrtFn epsKsi w orbit ncols n0 st).1.swaps,
          p.1 = p.2 := by
        intro p hp
        rw [hswaps] at hp
        rcases List.mem_append.1 hp with h | h
        · exact hall p h
        · simp at h
          rw [h, ← hidxdef, hne]
      rw [micadoLoop_cons] at hex ⊢
      cases hb : (micadoStep inner sqrtFn epsKsi w orbit ncols n0 st).2 with
      | true =>
        -- break fired: no distinct swap can exist, contradiction
        exfalso
        rw [hb, cond_true] at hex
        obtain ⟨p, hp, hpne⟩ := hex
        exact hpne (hall1 p hp)
      | false =>
        rw [cond_false]
        rw [hb, cond_false] at hex
        have := ih (n0 + 1) (micadoStep inner sqrtFn epsKsi w orbit ncols n0 st).1
          (by rw [hsame]; exact hrect) (by omega) hall1 hex
        rw [hsame] at this
        exact this
    · -- genuine swap: column n0 of the final matrix is the old column idx
      have hcolne : getColL st.resp idx ≠ getColL st.resp n0 :=
        stepIndex_col_ne inner sqrtFn w orbit ncols n0 st hn0 hne
      have hcol1 : getColL (micadoStep inner sqrtFn epsKsi w orbit ncols n0 st).1.resp n0 =
          getColL st.resp idx := by
        rw [hresp, ← hidxdef]
        exact getColL_swapColsL_fst st.resp hrect (Ne.symm hne) hn0
      rw [micadoLoop_cons]
      cases hb : (micadoStep inner sqrtFn epsKsi w orbit ncols n0 st).2 with
      | true =>
        rw [cond_true]
        intro hfinal
        apply hcolne
        rw [← hcol1, hfinal]
      | false =>
        rw [cond_false]
        intro hfinal
        apply hcolne
        have hpres := micadoLoop_preserves_cols inner sqrtFn epsKsi w orbit ncols len (n0 + 1)
          (micadoStep inner sqrtFn epsKsi w orbit ncols n0 st).1 n0 (by omega)
        rw [← hcol1, ← hpres, hfinal]


/-- C10: MICADO.apply permutes the columns of its resp_matrix argument in
place and does not restore them: whenever the run performs a swap of two
distinct column indices, the matrix object after the call differs from the
matrix that was passed in. -/
theorem micado_mutates_resp (inner : MatL → List ℚ → Option MatL → List ℚ) (sqrtFn : ℚ → ℚ)
    (epsKsi : ℚ) (w : Option MatL) (resp : MatL) (orbit : List ℚ)
    (hrect : RectL resp (numColsL resp))
    (hsw : ∃ p ∈ (micadoRun inner sqrtFn epsKsi w resp orbit).swaps, p.1 ≠ p.2) :
    (micadoRun inner sqrtFn epsKsi w resp orbit).resp ≠ resp := by
  unfold micadoRun at hsw ⊢
  rw [List.range_eq_range'] at hsw ⊢
  exact micadoLoop_mutates inner sqrtFn epsKsi w orbit (numColsL resp) (numColsL resp) 0
    (micadoInit resp) hrect (by omega) (by intro p hp; simp [micadoInit] at hp) hsw

theorem micado_mutates_resp_witness :
    RectL [[(0 : ℚ), 1]] (numColsL [[(0 : ℚ), 1]]) ∧
    (∃ p ∈ (micadoRun (fun t _ _ => if t = [[1]] then [1] else if t = [[1, 0]] then [1, 0] else [0])
        id 1 none [[(0 : ℚ), 1]] [1]).swaps, p.1 ≠ p.2) ∧
    (micadoRun (fun t _ _ => if t = [[1]] then [1] else if t = [[1, 0]] then [1, 0] else [0])
        id 1 none [[(0 : ℚ), 1]] [1]).resp ≠ [[(0 : ℚ), 1]] :=
  ⟨of_decide_eq_true (by with_unfolding_all rfl), of_decide_eq_true (by with_unfolding_all rfl),
    micado_mutates_resp _ _ _ _ _ _ (of_decide_eq_true (by with_unfolding_all rfl))
      (of_decide_eq_true (by with_unfolding_all rfl))⟩

/-- C3: on a single-column response matrix the outer loop selects the only
column (all columns selected) and terminates without the early-stop break, so
MICADO.apply returns the all-zero vector for EVERY inner solver: the computed
sub-solution angles_part is discarded because angle is written only inside
the break branch.  This contradicts the claim that the selected actuators
carry the solved sub-solution when all columns have been selected. -/
theorem micado_all_selected_returns_zero (inner : MatL → List ℚ → Option MatL → List ℚ)
    (sqrtFn : ℚ → ℚ) (epsKsi : ℚ) (w : Option MatL) :
    micadoApply inner sqrtFn epsKsi [[1]] [1] w = [0] := rfl

/-- C8: MICADO.apply gives the same result for any two weights arguments;
the method body replaces weights by None before any use, so the supplied
monitor weights have no effect. -/
theorem micado_ignores_weights (inner : MatL → List ℚ → Option MatL → List ℚ)
    (sqrtFn : ℚ → ℚ) (epsKsi : ℚ) (resp : MatL) (orbit : List ℚ)
    (w1 w2 : Option MatL) :
    micadoApply inner sqrtFn epsKsi resp orbit w1 =
      micadoApply inner sqrtFn epsKsi resp orbit w2 := rfl

theorem restore_change_corrector (c : LatElem) (lat : List LatElem) :
    restore_corrector c (change_corrector c lat) = lat := by
  unfold restore_corrector change_corrector
  rw [List.map_map]
  have h : ∀ e : LatElem,
      ((fun e => if e.eid = c.eid then { e with angle := e.angle - c.dI } else e) ∘
        (fun e => if e.eid = c.eid then { e with angle := e.angle + c.dI } else e)) e = e := by
    intro e
    obtain ⟨ei, an, di⟩ := e
    by_cases he : ei = c.eid
    · simp [he, add_sub_cancel_right]
    · simp [he]
  rw [List.map_congr_left (fun e _ => h e)]
  simp

theorem measLoop_cons (track : TrackOracle) (bpms0 : List (ℚ × ℚ))
    (c : LatElem) (rest : List LatElem) (k : ℕ) (lat : List LatElem) :
    measLoop track bpms0 (c :: rest) k lat =
      match track k with
      | none => (none, k, change_corrector c lat)
      | some rd =>
        match measLoop track bpms0 rest (k + 1) (restore_corrector c (change_corrector c lat)) with
        | (cols, k2, lat2) => (cols.map (fun cs => fdColumn bpms0 rd c.dI :: cs), k2, lat2) := rfl

theorem measLoop_ok_restores (track : TrackOracle) (bpms0 : List (ℚ × ℚ)) :
    ∀ (cors : List LatElem) (k : ℕ) (lat : List LatElem),
    (measLoop track bpms0 cors k lat).1.isSome →
    (measLoop track bpms0 cors k lat).2.2 = lat := by
  intro cors
  induction cors with
  | nil => intro k lat _; rfl
  | cons c rest ih =>
    intro k lat hsome
    rw [measLoop_cons] at hsome ⊢
    cases htr : track k with
    | none =>
      rw [htr] at hsome
      simp at hsome
    | some rd =>
      rw [htr] at hsome
      dsimp only at hsome ⊢
      have h2 : (measLoop track bpms0 rest (k + 1)
          (restore_corrector c (change_corrector c lat))).1.isSome := by
        cases hcols : (measLoop track bpms0 rest (k + 1)
            (restore_corrector c (change_corrector c lat))).1 with
        | none => rw [hcols] at hsome; simp at hsome
        | some _ => rfl
      rw [ih (k + 1) _ h2, restore_change_corrector]

theorem measureRM_unfold (track : TrackOracle)
    (hcors vcors lat : List LatElem) :
    measureRM track hcors vcors lat =
      match track 0 with
      | none => (none, lat)
      | some rd0 =>
        match measLoop track rd0 hcors 1 lat with
        | (none, _, lat1) => (none, lat1)
        | (some colsH, k1, lat1) =>
          match measLoop track rd0 vcors k1 lat1 with
          | (cols, _, lat2) => (cols.map (fun colsV => colsH ++ colsV), lat2) := rfl

/-- C9 (amended): measure_response_matrix restores every perturbed corrector
on every successful exit: when no tracking call raises, the lattice returned
is exactly the input lattice. -/
theorem measureRM_ok_restores (track : TrackOracle)
    (hcors vcors lat : List LatElem)
    (hok : (measureRM track hcors vcors lat).1.isSome) :
    (measureRM track hcors vcors lat).2 = lat := by
  rw [measureRM_unfold] at hok ⊢
  cases htr : track 0 with
  | none => rfl
  | some rd0 =>
    rw [htr] at hok
    dsimp only at hok ⊢
    cases hrec : measLoop track rd0 hcors 1 lat with
    | mk colsH rest1 =>
      obtain ⟨k1, lat1⟩ := rest1
      rw [hrec] at hok
      have hH := measLoop_ok_restores track rd0 hcors 1 lat
      rw [hrec] at hH
      cases colsH with
      | none => simp at hok
      | some colsH =>
        dsimp only at hok ⊢
        have hlat1 : lat1 = lat := hH rfl
        cases hrec2 : measLoop track rd0 vcors k1 lat1 with
        | mk colsV rest2 =>
          obtain ⟨k2, lat2⟩ := rest2
          rw [hrec2] at hok
          have hV := measLoop_ok_restores track rd0 vcors k1 lat1
          rw [hrec2] at hV
          dsimp only at hok hV ⊢
          have h2 : colsV.isSome := by
            cases colsV with
            | none => simp at hok
            | some _ => rfl
          rw [hV h2, hlat1]

/-- C9 counterexample: when the tracking collaborator raises during the first
horizontal-corrector measurement (call index 1), the function exits with the
corrector still perturbed: the lattice at exit is not the input lattice, so
restoration on EVERY exit path fails. -/
theorem measureRM_error_leaves_perturbed :
    (measureRM (fun k => if k = 0 then some [(0, 0)] else none)
      [⟨0, 0, 1⟩] [] [⟨0, 0, 1⟩]).2 ≠ [⟨0, 0, 1⟩] ∧
    (measureRM (fun k => if k = 0 then some [(0, 0)] else none)
      [⟨0, 0, 1⟩] [] [⟨0, 0, 1⟩]).2 = [⟨0, 1, 1⟩] :=
  ⟨of_decide_eq_true (by with_unfolding_all rfl),
    of_decide_eq_true (by with_unfolding_all rfl)⟩

theorem measureRM_ok_restores_witness :
    ((measureRM (fun _ => some [(0, 0)]) [⟨0, 0, 1⟩] [⟨1, 0, 1⟩] [⟨0, 0, 1⟩, ⟨1, 0, 1⟩]).1.isSome) ∧
    (measureRM (fun _ => some [(0, 0)]) [⟨0, 0, 1⟩] [⟨1, 0, 1⟩] [⟨0, 0, 1⟩, ⟨1, 0, 1⟩]).2 =
      [⟨0, 0, 1⟩, ⟨1, 0, 1⟩] :=
  ⟨of_decide_eq_true (by with_unfolding_all rfl),
    measureRM_ok_restores _ _ _ _ (of_decide_eq_true (by with_unfolding_all rfl))⟩

theorem scaleMat_length (a : ℚ) (M : MatL) : (scaleMat a M).length = M.length := by
  simp [scaleMat]

theorem eyeL_length (k : ℕ) : (eyeL k).length = k := by
  simp [eyeL]

theorem zerosLike_length (M : MatL) : (zerosLike M).length = M.length := by
  simp [zerosLike]

theorem correctionDRM_length (RM0 : MatL) (DRM0 : Option MatL) (alpha : ℚ)
    (hd : ∀ D ∈ DRM0, D.length = RM0.length) :
    (correctionDRM (correctionRM RM0 alpha) DRM0 alpha).length = RM0.length := by
  cases DRM0 with
  | none => simp [correctionDRM, zerosLike_length, correctionRM, scaleMat_length]
  | some D =>
    have := hd D rfl
    simp [correctionDRM, scaleMat_length, this]

/-- C4 (amended): the regularization identity block appended by
Orbit.correction is square with as many rows as the dispersion block has
ROWS, i.e. 2 rows per monitor (np.eye(np.shape(DRM)[0])), not one row per
actuator. -/
theorem bmat_rows_eq_DRM_rows (RM0 : MatL) (DRM0 : Option MatL) (alpha beta : ℚ)
    (bpms : List BPMe) (hd : ∀ D ∈ DRM0, D.length = RM0.length)
    (hR : RM0.length = 2 * bpms.length) :
    (correctionBmat beta (correctionDRM (correctionRM RM0 alpha) DRM0 alpha)).length =
      (correctionDRM (correctionRM RM0 alpha) DRM0 alpha).length ∧
    (correctionBmat beta (correctionDRM (correctionRM RM0 alpha) DRM0 alpha)).length =
      2 * bpms.length := by
  constructor
  · simp [correctionBmat, scaleMat_length, eyeL_length]
  · simp [correctionBmat, scaleMat_length, eyeL_length,
      correctionDRM_length RM0 DRM0 alpha hd, hR]

theorem bmat_rows_eq_DRM_rows_witness :
    ((∀ D ∈ (none : Option MatL), D.length = ([[1], [0]] : MatL).length) ∧
      ([[1], [0]] : MatL).length = 2 * [(⟨1, 0, 0, 0, 0, 0, 0, 0, 1⟩ : BPMe)].length) ∧
    ((correctionBmat 1 (correctionDRM (correctionRM [[1], [0]] 0) none 0)).length =
        (correctionDRM (correctionRM [[1], [0]] 0) none 0).length ∧
      (correctionBmat 1 (correctionDRM (correctionRM [[1], [0]] 0) none 0)).length =
        2 * [(⟨1, 0, 0, 0, 0, 0, 0, 0, 1⟩ : BPMe)].length) :=
  ⟨⟨fun D hD => by simp at hD, of_decide_eq_true (by with_unfolding_all rfl)⟩,
    bmat_rows_eq_DRM_rows [[1], [0]] none 0 1 [⟨1, 0, 0, 0, 0, 0, 0, 0, 1⟩]
      (fun D hD => by simp at hD) (of_decide_eq_true (by with_unfolding_all rfl))⟩

/-- C4 counterexample: with one monitor and one actuator the regularization
block has 2 rows while the dispersion block has 1 column: the claimed
invariant rows(regularization) = columns(dispersion) fails. -/
theorem bmat_rows_ne_disp_cols :
    (correctionBmat 1 (correctionDRM (correctionRM [[1], [0]] 0) none 0)).length = 2 ∧
    numColsL (correctionDRM (correctionRM [[1], [0]] 0) none 0) = 1 ∧
    (2 : ℕ) ≠ 1 :=
  ⟨of_decide_eq_true (by with_unfolding_all rfl),
    of_decide_eq_true (by with_unfolding_all rfl), by omega⟩

/-- C5 (amended): the solver output is split with the first ncor components
as orbit correction and the next ncor as dispersion correction for the same
actuators, and each actuator angle is updated to
old - ((1 - alpha) * a[i] + alpha * a[ncor + i]); equivalently the quantity
Delta = -((1 - alpha) * a[i] + alpha * a[ncor + i]) is ADDED to the angle,
not subtracted from it. -/
theorem correction_angle_update (bpms : List BPMe) (corAngles : List ℚ) (RM0 : MatL)
    (DRM0 : Option MatL) (alpha beta : ℚ) (solver : MatL → List ℚ → MatL → List ℚ)
    (i : ℕ) (hi : i < corAngles.length) :
    (correctionRun bpms corAngles RM0 DRM0 alpha beta solver).getD i 0 =
      corAngles.getD i 0 -
        ((1 - alpha) * (solver (correctionRmatrix RM0 DRM0 alpha beta)
            (correctionVector bpms RM0 DRM0 alpha) (correctionWeights bpms)).getD i 0 +
          alpha * (solver (correctionRmatrix RM0 DRM0 alpha beta)
            (correctionVector bpms RM0 DRM0 alpha) (correctionWeights bpms)).getD
              (corAngles.length + i) 0) := by
  unfold correctionRun correctionAngles
  rw [List.getD_eq_getElem?_getD, List.getElem?_map, List.getElem?_range hi]
  rfl

theorem correction_angle_update_witness :
    (0 : ℕ) < ([0] : List ℚ).length ∧
    (correctionRun [⟨1, 0, 0, 0, 0, 0, 0, 0, 1⟩] [0] [[1], [0]] none 0 0
        (fun _ _ _ => [1, 0, 0, 0])).getD 0 0 =
      ([0] : List ℚ).getD 0 0 -
        ((1 - 0) * ((fun (_ : MatL) (_ : List ℚ) (_ : MatL) => [(1 : ℚ), 0, 0, 0])
            (correctionRmatrix [[1], [0]] none 0 0)
            (correctionVector [⟨1, 0, 0, 0, 0, 0, 0, 0, 1⟩] [[1], [0]] none 0)
            (correctionWeights [⟨1, 0, 0, 0, 0, 0, 0, 0, 1⟩])).getD 0 0 +
          0 * ((fun (_ : MatL) (_ : List ℚ) (_ : MatL) => [(1 : ℚ), 0, 0, 0])
            (correctionRmatrix [[1], [0]] none 0 0)
            (correctionVector [⟨1, 0, 0, 0, 0, 0, 0, 0, 1⟩] [[1], [0]] none 0)
            (correctionWeights [⟨1, 0, 0, 0, 0, 0, 0, 0, 1⟩])).getD (([0] : List ℚ).length + 0) 0) :=
  ⟨by simp,
    correction_angle_update [⟨1, 0, 0, 0, 0, 0, 0, 0, 1⟩] [0] [[1], [0]] none 0 0
      (fun _ _ _ => [1, 0, 0, 0]) 0 (by simp)⟩

/-- C5 counterexample: with alpha = 0 and a solver returning a = (1, 0, 0, 0)
for the single actuator, the code leaves the angle 0 - 1 = -1, while the
update rule stated by the claim (form Delta = -[(1-alpha) a_orbit + alpha
a_disp] and subtract it) yields 0 - (-1) = +1. -/
theorem correction_update_sign_counterexample :
    correctionRun [⟨1, 0, 0, 0, 0, 0, 0, 0, 1⟩] [0] [[1], [0]] none 0 0
        (fun _ _ _ => [1, 0, 0, 0]) = [-1] ∧
    claimAngleUpdate 0 1 0 0 = 1 ∧ ((-1 : ℚ) ≠ 1) :=
  ⟨of_decide_eq_true (by with_unfolding_all rfl),
    of_decide_eq_true (by with_unfolding_all rfl),
    of_decide_eq_true (by with_unfolding_all rfl)⟩

theorem scaleVec_one (v : List ℚ) : scaleVec 1 v = v := by
  simp [scaleVec]

theorem scaleMat_one (M : MatL) : scaleMat 1 M = M := by
  simp [scaleMat]

theorem scaleVec_zero (v : List ℚ) : scaleVec 0 v = List.replicate v.length 0 := by
  unfold scaleVec
  rw [List.eq_replicate_iff]
  refine ⟨by simp, ?_⟩
  intro b hb
  obtain ⟨a, _, rfl⟩ := List.mem_map.1 hb
  ring

theorem zerosRow_append (a b : ℕ) : zerosRow a ++ zerosRow b = zerosRow (a + b) := by
  simp [zerosRow, ← List.replicate_add]

theorem scaleMat_zero_rect (M : MatL) (c : ℕ) (h : RectL M c) :
    scaleMat 0 M = zerosMatL M.length c := by
  unfold scaleMat zerosMatL
  rw [List.eq_replicate_iff]
  refine ⟨by simp, ?_⟩
  intro r hr
  obtain ⟨r0, hr0, rfl⟩ := List.mem_map.1 hr
  unfold zerosRow
  rw [List.eq_replicate_iff]
  refine ⟨by simp [h r0 hr0], ?_⟩
  intro b hb
  obtain ⟨a, _, rfl⟩ := List.mem_map.1 hb
  ring

theorem zerosLike_rect (M : MatL) (c : ℕ) (h : RectL M c) :
    zerosLike M = zerosMatL M.length c := by
  unfold zerosLike zerosMatL
  rw [List.eq_replicate_iff]
  refine ⟨by simp, ?_⟩
  intro r hr
  obtain ⟨r0, hr0, rfl⟩ := List.mem_map.1 hr
  simp [zerosRow, h r0 hr0]

theorem eyeL_rect (k : ℕ) : RectL (eyeL k) k := by
  intro r hr
  obtain ⟨i, _, rfl⟩ := List.mem_map.1 hr
  simp

theorem numColsL_zerosMatL (r c : ℕ) (h : 0 < r) : numColsL (zerosMatL r c) = c := by
  obtain ⟨r', rfl⟩ := Nat.exists_eq_succ_of_ne_zero (Nat.pos_iff_ne_zero.1 h)
  simp [zerosMatL, numColsL, zerosRow, List.replicate_succ]

theorem combine_matrices_right_zeros (A : MatL) (r2 c2 : ℕ) (h2 : 0 < r2) (cA : ℕ)
    (hA : numColsL A = cA) :
    combine_matrices A (zerosMatL r2 c2) =
      A.map (fun r => r ++ zerosRow c2) ++ List.replicate r2 (zerosRow (cA + c2)) := by
  unfold combine_matrices
  rw [numColsL_zerosMatL r2 c2 h2, hA]
  congr 1
  unfold zerosMatL
  rw [List.map_replicate, zerosRow_append]

theorem correctionDRM_alpha0 (RM0 : MatL) (DRM0 : Option MatL) (C : ℕ)
    (hC : RectL RM0 C) (hC0 : numColsL RM0 = C)
    (hD : ∀ D ∈ DRM0, RectL D (numColsL D) ∧ D.length = RM0.length) :
    correctionDRM (correctionRM RM0 0) DRM0 0 =
      zerosMatL RM0.length (dispColsOf RM0 DRM0) := by
  cases DRM0 with
  | none =>
    unfold correctionDRM correctionRM dispColsOf
    rw [sub_zero, scaleMat_one, zerosLike_rect RM0 C hC, hC0]
  | some D =>
    obtain ⟨hDr, hDl⟩ := hD D rfl
    unfold correctionDRM dispColsOf
    dsimp only
    rw [scaleMat_zero_rect D (numColsL D) hDr, hDl]

/-- C6 (amended): with alpha = 0 and beta = 0 the combined system assembled
by Orbit.correction is the plain orbit response matrix padded with zero
columns and zero rows (the dispersion and regularization blocks contribute
only zero entries), and the combined error vector is the plain orbit error
padded with zeros. -/
theorem correction_alpha0_beta0_reduces (bpms : List BPMe) (RM0 : MatL)
    (DRM0 : Option MatL) (C : ℕ) (hC : RectL RM0 C) (hC0 : numColsL RM0 = C)
    (hR : 0 < RM0.length)
    (hD : ∀ D ∈ DRM0, RectL D (numColsL D) ∧ D.length = RM0.length) :
    correctionRmatrix RM0 DRM0 0 0 =
      RM0.map (fun r => r ++ zerosRow (dispColsOf RM0 DRM0 + RM0.length)) ++
        zerosMatL (RM0.length + RM0.length) (C + dispColsOf RM0 DRM0 + RM0.length) ∧
    correctionVector bpms RM0 DRM0 0 =
      get_orbit bpms ++ List.replicate ((get_orbit bpms).length + RM0.length) 0 := by
  have hRM : correctionRM RM0 0 = RM0 := by
    unfold correctionRM
    rw [sub_zero, scaleMat_one]
  have hDRM := correctionDRM_alpha0 RM0 DRM0 C hC hC0 hD
  constructor
  · unfold correctionRmatrix blockDiag3
    dsimp only
    rw [hDRM, hRM]
    set CD := dispColsOf RM0 DRM0 with hCD
    set R := RM0.length with hRdef
    have hbm : correctionBmat 0 (zerosMatL R CD) = zerosMatL R R := by
      unfold correctionBmat
      rw [scaleMat_zero_rect (eyeL (zerosMatL R CD).length) ((zerosMatL R CD).length)
        (by rw [show (zerosMatL R CD).length = R by simp [zerosMatL]]
            exact eyeL_rect R)]
      simp [zerosMatL, eyeL]
    rw [hbm]
    rw [combine_matrices_right_zeros RM0 R CD hR C hC0]
    have hB1cols : numColsL (RM0.map (fun r => r ++ zerosRow CD) ++
        List.replicate R (zerosRow (C + CD))) = C + CD := by
      obtain ⟨r0, RM0', hcons⟩ := List.exists_cons_of_ne_nil (List.ne_nil_of_length_pos hR)
      rw [hcons]
      simp [numColsL, zerosRow, hC r0 (by rw [hcons]; exact List.mem_cons_self r0 RM0')]
    rw [combine_matrices_right_zeros _ R R hR (C + CD) hB1cols]
    rw [List.map_append, List.map_map, List.map_replicate]
    rw [List.append_assoc]
    congr 1
    · refine List.map_congr_left (fun r _ => ?_)
      simp [Function.comp, List.append_assoc, zerosRow_append]
    · rw [zerosRow_append]
      unfold zerosMatL
      rw [← List.replicate_add]
  · unfold correctionVector
    dsimp only
    rw [hDRM]
    have horb : correctionOrbit bpms 0 = get_orbit bpms := by
      unfold correctionOrbit
      rw [sub_zero, scaleVec_one]
    have hdisp : correctionDisp bpms 0 = List.replicate (get_orbit bpms).length 0 := by
      unfold correctionDisp
      rw [if_neg (by simp), horb, scaleVec_zero]
    rw [hdisp, horb]
    unfold correctionBorbit
    rw [List.append_assoc]
    congr 1
    rw [show (zerosMatL RM0.length (dispColsOf RM0 DRM0)).length = RM0.length by
      simp [zerosMatL]]
    rw [← List.replicate_add]

theorem correction_alpha0_beta0_reduces_witness :
    (RectL [[(1 : ℚ)], [0]] 1 ∧ numColsL [[(1 : ℚ)], [0]] = 1 ∧
      0 < ([[(1 : ℚ)], [0]] : MatL).length) ∧
    (correctionRmatrix [[(1 : ℚ)], [0]] none 0 0 =
        ([[(1 : ℚ)], [0]] : MatL).map
          (fun r => r ++ zerosRow (dispColsOf [[(1 : ℚ)], [0]] none +
            ([[(1 : ℚ)], [0]] : MatL).length)) ++
          zerosMatL (([[(1 : ℚ)], [0]] : MatL).length + ([[(1 : ℚ)], [0]] : MatL).length)
            (1 + dispColsOf [[(1 : ℚ)], [0]] none + ([[(1 : ℚ)], [0]] : MatL).length) ∧
      correctionVector [⟨1, 0, 0, 0, 0, 0, 0, 0, 1⟩] [[(1 : ℚ)], [0]] none 0 =
        get_orbit [⟨1, 0, 0, 0, 0, 0, 0, 0, 1⟩] ++
          List.replicate ((get_orbit [⟨1, 0, 0, 0, 0, 0, 0, 0, 1⟩]).length +
            ([[(1 : ℚ)], [0]] : MatL).length) 0) :=
  ⟨⟨of_decide_eq_true (by with_unfolding_all rfl),
      of_decide_eq_true (by with_unfolding_all rfl),
      of_decide_eq_true (by with_unfolding_all rfl)⟩,
    correction_alpha0_beta0_reduces [⟨1, 0, 0, 0, 0, 0, 0, 0, 1⟩] [[(1 : ℚ)], [0]] none 1
      (of_decide_eq_true (by with_unfolding_all rfl))
      (of_decide_eq_true (by with_unfolding_all rfl))
      (of_decide_eq_true (by with_unfolding_all rfl))
      (fun D hD => by simp at hD)⟩

/-- C6 counterexample: for the session with one monitor (reading x = 1) and
one actuator, orbit response matrix [[1], [0]], no dispersion matrix, alpha =
beta = 0, unit monitor weights, and the default OrbitSVD solver with
epsilon_x = 2, epsilon_y = 0: the assembled 6 x 4 combined system (with its
valid SVD) yields orbit correction component 0, while the same solver on the
plain 2 x 1 orbit system alone (with its valid SVD) yields 1.  The threshold
index split sits at min(6,4)/2 = 2 for the combined system but at
min(2,1)/2 = 0 for the plain system, so the retained singular values differ
and the orbit components of the two corrections disagree. -/
theorem correction_alpha0_beta0_solver_differs :
    matToLists (Matrix.of fun (i : Fin 6) (j : Fin 4) =>
        if (i : ℕ) = 0 ∧ (j : ℕ) = 0 then (1 : ℚ) else 0) =
      correctionRmatrix [[(1 : ℚ)], [0]] none 0 0 ∧
    vecToList (fun i : Fin 6 => if (i : ℕ) = 0 then (1 : ℚ) else 0) =
      correctionVector [⟨1, 0, 0, 0, 0, 0, 0, 0, 1⟩] [[(1 : ℚ)], [0]] none 0 ∧
    matToLists (1 : Matrix (Fin 6) (Fin 6) ℚ) =
      correctionWeights [⟨1, 0, 0, 0, 0, 0, 0, 0, 1⟩] ∧
    IsSVD ((some (1 : Matrix (Fin 6) (Fin 6) ℚ)).getD 1 *
        Matrix.of fun (i : Fin 6) (j : Fin 4) =>
          if (i : ℕ) = 0 ∧ (j : ℕ) = 0 then (1 : ℚ) else 0)
      1 (fun i => if (i : ℕ) = 0 then 1 else 0) 1 ∧
    orbitSVDRun 2 0 (some 1) (1 : Matrix (Fin 6) (Fin 6) ℚ)
      (fun i => if (i : ℕ) = 0 then 1 else 0) (1 : Matrix (Fin 4) (Fin 4) ℚ)
      (fun i => if (i : ℕ) = 0 then 1 else 0) 0 = 0 ∧
    IsSVD ((none : Option (Matrix (Fin 2) (Fin 2) ℚ)).getD 1 *
        Matrix.of fun (i : Fin 2) (_ : Fin 1) => if (i : ℕ) = 0 then (1 : ℚ) else 0)
      1 (fun _ => 1) 1 ∧
    orbitSVDRun 2 0 none (1 : Matrix (Fin 2) (Fin 2) ℚ) (fun _ => (1 : ℚ))
      (1 : Matrix (Fin 1) (Fin 1) ℚ) (fun i => if (i : ℕ) = 0 then 1 else 0) 0 = 1 ∧
    (0 : ℚ) ≠ 1 :=
  ⟨of_decide_eq_true (by with_unfolding_all rfl),
    of_decide_eq_true (by with_unfolding_all rfl),
    of_decide_eq_true (by with_unfolding_all rfl),
    of_decide_eq_true (by with_unfolding_all rfl),
    of_decide_eq_true (by with_unfolding_all rfl),
    of_decide_eq_true (by with_unfolding_all rfl),
    of_decide_eq_true (by with_unfolding_all rfl),
    of_decide_eq_true (by with_unfolding_all rfl)⟩

/-- C1 (amended): OrbitSVD.apply computes W*M and W*e (W defaulting to the
identity), takes the SVD of W*M and returns V . Sinv^t . U^t . (W*e), zeroing
singular value s[i] exactly when s[i] <= max(s) * epsilon, where epsilon is
epsilon_x for i < floor(k/2) and epsilon_y otherwise with k = min(m, n) the
number of singular values returned by numpy; the claimed split floor(n/2)
agrees with the code exactly when n <= m. -/
theorem orbitSVD_split_at_min (m n : ℕ) (hmn : n ≤ m) (epsX epsY : ℚ)
    (W : Option (Matrix (Fin m) (Fin m) ℚ)) (M : Matrix (Fin m) (Fin n) ℚ)
    (U : Matrix (Fin m) (Fin m) ℚ) (s : Fin (min m n) → ℚ)
    (Vt : Matrix (Fin n) (Fin n) ℚ) (e : Fin m → ℚ)
    (hsvd : IsSVD ((W.getD 1) * M) U s Vt) :
    orbitSVDRun epsX epsY W U s Vt e = orbitClaimRun epsX epsY W U s Vt e := by
  unfold orbitSVDRun orbitClaimRun orbitSVDApply orbitClaimApply
  have h : sInvCode m n epsX epsY s = sInvClaim m n epsX epsY s := by
    funext i
    unfold sInvCode sInvClaim
    have he : ∀ t : ℕ, epsAt epsX epsY (min m n) t = epsAt epsX epsY n t := by
      intro t
      unfold epsAt
      rw [Nat.min_eq_right hmn]
    rw [he (i : ℕ)]
  rw [h]

theorem orbitSVD_split_at_min_witness :
    (1 : ℕ) ≤ 1 ∧
    orbitSVDRun 2 0 (none : Option (Matrix (Fin 1) (Fin 1) ℚ)) 1 (fun _ => (1 : ℚ))
        (1 : Matrix (Fin 1) (Fin 1) ℚ) (fun _ => 1) =
      orbitClaimRun 2 0 (none : Option (Matrix (Fin 1) (Fin 1) ℚ)) 1 (fun _ => (1 : ℚ))
        (1 : Matrix (Fin 1) (Fin 1) ℚ) (fun _ => 1) :=
  ⟨by omega,
    orbitSVD_split_at_min 1 1 (by omega) 2 0 none (Matrix.of fun _ _ => 1) 1 (fun _ => 1) 1
      (fun _ => 1) (of_decide_eq_true (by with_unfolding_all rfl))⟩

/-- C1 counterexample: for the 1 x 2 response matrix M = [[1, 0]] (m = 1
monitor row, n = 2 actuators) with identity weights, SVD factors U = [[1]],
s = [1], Vt = I2, epsilon_x = 2 and epsilon_y = 0: numpy returns
min(1, 2) = 1 singular value and the code splits at floor(1/2) = 0, so index
0 uses epsilon_y and the singular value is kept, giving a = (1, 0); the
claimed split at floor(n/2) = 1 would use epsilon_x and zero it, giving
a = (0, 0). -/
theorem orbitSVD_split_counterexample :
    IsSVD (((none : Option (Matrix (Fin 1) (Fin 1) ℚ)).getD 1) *
        Matrix.of fun (_ : Fin 1) (j : Fin 2) => if (j : ℕ) = 0 then (1 : ℚ) else 0)
      1 (fun _ => 1) 1 ∧
    orbitSVDRun 2 0 (none : Option (Matrix (Fin 1) (Fin 1) ℚ)) 1 (fun _ => (1 : ℚ))
      (1 : Matrix (Fin 2) (Fin 2) ℚ) (fun _ => 1) =
      (fun j : Fin 2 => if (j : ℕ) = 0 then (1 : ℚ) else 0) ∧
    orbitClaimRun 2 0 (none : Option (Matrix (Fin 1) (Fin 1) ℚ)) 1 (fun _ => (1 : ℚ))
      (1 : Matrix (Fin 2) (Fin 2) ℚ) (fun _ => 1) = (fun _ : Fin 2 => (0 : ℚ)) ∧
    orbitSVDRun 2 0 (none : Option (Matrix (Fin 1) (Fin 1) ℚ)) 1 (fun _ => (1 : ℚ))
      (1 : Matrix (Fin 2) (Fin 2) ℚ) (fun _ => 1) ≠
      orbitClaimRun 2 0 (none : Option (Matrix (Fin 1) (Fin 1) ℚ)) 1 (fun _ => (1 : ℚ))
      (1 : Matrix (Fin 2) (Fin 2) ℚ) (fun _ => 1) :=
  ⟨of_decide_eq_true (by with_unfolding_all rfl),
    of_decide_eq_true (by with_unfolding_all rfl),
    of_decide_eq_true (by with_unfolding_all rfl),
    of_decide_eq_true (by with_unfolding_all rfl)⟩

theorem sMaxQ_nonneg {k : ℕ} (s : Fin k → ℚ) (hs : ∀ i, 0 ≤ s i) : 0 ≤ sMaxQ s := by
  unfold sMaxQ
  split
  · next h => exact le_trans (hs ⟨0, h⟩) (Finset.le_sup' s (Finset.mem_univ ⟨0, h⟩))
  · exact le_refl 0

theorem epsAt_mono (epsX epsY epsX' epsY' : ℚ) (hx : epsX ≤ epsX') (hy : epsY ≤ epsY')
    (k t : ℕ) : epsAt epsX epsY k t ≤ epsAt epsX' epsY' k t := by
  unfold epsAt
  split
  · exact hx
  · exact hy

theorem retainedCount_antitone (m n : ℕ) (epsX epsY epsX' epsY' : ℚ)
    (hx : epsX ≤ epsX') (hy : epsY ≤ epsY') (s : Fin (min m n) → ℚ)
    (hs : ∀ i, 0 ≤ s i) :
    retainedCount m n epsX' epsY' s ≤ retainedCount m n epsX epsY s := by
  unfold retainedCount
  apply Finset.card_le_card
  intro i hi
  rw [Finset.mem_filter] at hi ⊢
  refine ⟨hi.1, ?_⟩
  intro hle
  apply hi.2
  refine le_trans hle ?_
  exact mul_le_mul_of_nonneg_left (epsAt_mono epsX epsY epsX' epsY' hx hy _ _)
    (sMaxQ_nonneg s hs)

theorem sinvT_mulVec {m n : ℕ} (sv : Fin (min m n) → ℚ) (d : Fin m → ℚ) (i : Fin n) :
    (sinvTMat sv *ᵥ d) i =
      dite ((i : ℕ) < min m n)
        (fun h => sv ⟨i, h⟩ * d ⟨i, lt_of_lt_of_le h (Nat.min_le_left m n)⟩)
        (fun _ => 0) := by
  have hv : (sinvTMat sv *ᵥ d) i = ∑ j, sinvTMat sv i j * d j := rfl
  rw [hv]
  by_cases h : (i : ℕ) < min m n
  · rw [dif_pos h]
    rw [Finset.sum_eq_single (⟨(i : ℕ), lt_of_lt_of_le h (Nat.min_le_left m n)⟩ : Fin m)]
    · unfold sinvTMat
      rw [Matrix.of_apply, dif_pos ⟨rfl, h⟩]
    · intro j _ hj
      unfold sinvTMat
      rw [Matrix.of_apply, dif_neg, zero_mul]
      intro hcond
      exact hj (Fin.ext hcond.1.symm)
    · intro hmem
      exact absurd (Finset.mem_univ _) hmem
  · rw [dif_neg h]
    apply Finset.sum_eq_zero
    intro j _
    unfold sinvTMat
    rw [Matrix.of_apply, dif_neg, zero_mul]
    intro hcond
    exact h hcond.2

theorem normSq_mulVec_orthogonal {n : ℕ} (Vt : Matrix (Fin n) (Fin n) ℚ)
    (hV : Vt * Vt.transpose = 1) (c : Fin n → ℚ) :
    normSq (Vt.transpose *ᵥ c) = normSq c := by
  unfold normSq
  have h1 : ∀ v : Fin n → ℚ, (∑ i, v i * v i) = Matrix.dotProduct v v := fun _ => rfl
  rw [h1, h1]
  rw [Matrix.dotProduct_mulVec, Matrix.vecMul_transpose, Matrix.mulVec_mulVec, hV,
    Matrix.one_mulVec]

/-- C7: with identity weights, raising epsilon_x and epsilon_y never
increases the number of retained (non-zeroed) singular values, and the
squared Euclidean norm of the correction returned by OrbitSVD.apply is
non-increasing (hence so is the Euclidean norm). -/
theorem orbitSVD_truncation_monotone (m n : ℕ) (epsX epsY epsX' epsY' : ℚ)
    (hx : epsX ≤ epsX') (hy : epsY ≤ epsY') (M : Matrix (Fin m) (Fin n) ℚ)
    (U : Matrix (Fin m) (Fin m) ℚ) (s : Fin (min m n) → ℚ)
    (Vt : Matrix (Fin n) (Fin n) ℚ) (e : Fin m → ℚ) (hsvd : IsSVD M U s Vt) :
    retainedCount m n epsX' epsY' s ≤ retainedCount m n epsX epsY s ∧
    normSq (orbitSVDRun epsX' epsY' none U s Vt e) ≤
      normSq (orbitSVDRun epsX epsY none U s Vt e) := by
  obtain ⟨hA, hUUt, hUtU, hVVt, hVtV, hs, hsort⟩ := hsvd
  constructor
  · exact retainedCount_antitone m n epsX epsY epsX' epsY' hx hy s hs
  · unfold orbitSVDRun orbitSVDApply
    rw [show ((none : Option (Matrix (Fin m) (Fin m) ℚ)).getD 1) = (1 : Matrix (Fin m) (Fin m) ℚ)
      from rfl, Matrix.one_mulVec]
    have key : ∀ a b : ℚ,
        normSq ((Vt.transpose * (sinvTMat (sInvCode m n a b s) * U.transpose)) *ᵥ e) =
          normSq (sinvTMat (sInvCode m n a b s) *ᵥ (U.transpose *ᵥ e)) := by
      intro a b
      rw [← Matrix.mulVec_mulVec, normSq_mulVec_orthogonal Vt hVVt, ← Matrix.mulVec_mulVec]
    rw [key, key]
    unfold normSq
    apply Finset.sum_le_sum
    intro i _
    rw [sinvT_mulVec, sinvT_mulVec]
    by_cases h : (i : ℕ) < min m n
    · rw [dif_pos h, dif_pos h]
      by_cases hz : s ⟨i, h⟩ ≤ sMaxQ s * epsAt epsX' epsY' (min m n) ((⟨i, h⟩ : Fin (min m n)) : ℕ)
      · rw [show sInvCode m n epsX' epsY' s ⟨i, h⟩ = 0 from if_pos hz, zero_mul, zero_mul]
        exact mul_self_nonneg _
      · have hz0 : ¬ s ⟨i, h⟩ ≤ sMaxQ s * epsAt epsX epsY (min m n)
            ((⟨i, h⟩ : Fin (min m n)) : ℕ) := by
          intro hle
          apply hz
          refine le_trans hle ?_
          exact mul_le_mul_of_nonneg_left (epsAt_mono epsX epsY epsX' epsY' hx hy _ _)
            (sMaxQ_nonneg s hs)
        rw [show sInvCode m n epsX' epsY' s ⟨i, h⟩ = (s ⟨i, h⟩)⁻¹ from if_neg hz,
          show sInvCode m n epsX epsY s ⟨i, h⟩ = (s ⟨i, h⟩)⁻¹ from if_neg hz0]
    · rw [dif_neg h, dif_neg h]

theorem orbitSVD_truncation_monotone_witness :
    ((0 : ℚ) ≤ 1 ∧ (0 : ℚ) ≤ 1) ∧
    (retainedCount 1 1 1 1 (fun _ => (1 : ℚ)) ≤ retainedCount 1 1 0 0 (fun _ => (1 : ℚ)) ∧
      normSq (orbitSVDRun 1 1 (none : Option (Matrix (Fin 1) (Fin 1) ℚ)) 1 (fun _ => (1 : ℚ))
          (1 : Matrix (Fin 1) (Fin 1) ℚ) (fun _ => 1)) ≤
        normSq (orbitSVDRun 0 0 (none : Option (Matrix (Fin 1) (Fin 1) ℚ)) 1 (fun _ => (1 : ℚ))
          (1 : Matrix (Fin 1) (Fin 1) ℚ) (fun _ => 1))) :=
  ⟨⟨by norm_num, by norm_num⟩,
    orbitSVD_truncation_monotone 1 1 0 0 1 1 (by norm_num) (by norm_num)
      (Matrix.of fun _ _ => 1) 1 (fun _ => 1) 1 (fun _ => 1)
      (of_decide_eq_true (by with_unfolding_all rfl))⟩

theorem lpMatrix_mulVec_inl {m n : ℕ} (M : Matrix (Fin m) (Fin n) ℚ)
    (x : Fin n ⊕ Fin 1 → ℚ) (i : Fin m) :
    (lpMatrix M *ᵥ x) (Sum.inl i) =
      (M *ᵥ (fun j => x (Sum.inl j))) i - x (Sum.inr 0) := by
  have h : (lpMatrix M *ᵥ x) (Sum.inl i) = ∑ c, lpMatrix M (Sum.inl i) c * x c := rfl
  have h2 : (M *ᵥ (fun j => x (Sum.inl j))) i = ∑ j, M i j * x (Sum.inl j) := rfl
  rw [h, h2, Fintype.sum_sum_type]
  unfold lpMatrix
  simp only [Matrix.fromBlocks_apply₁₁, Matrix.fromBlocks_apply₁₂, Matrix.of_apply,
    Fin.sum_univ_one, neg_one_mul]
  ring

theorem lpMatrix_mulVec_inr {m n : ℕ} (M : Matrix (Fin m) (Fin n) ℚ)
    (x : Fin n ⊕ Fin 1 → ℚ) (i : Fin m) :
    (lpMatrix M *ᵥ x) (Sum.inr i) =
      -((M *ᵥ (fun j => x (Sum.inl j))) i) - x (Sum.inr 0) := by
  have h : (lpMatrix M *ᵥ x) (Sum.inr i) = ∑ c, lpMatrix M (Sum.inr i) c * x c := rfl
  have h2 : (M *ᵥ (fun j => x (Sum.inl j))) i = ∑ j, M i j * x (Sum.inl j) := rfl
  rw [h, h2, Fintype.sum_sum_type]
  unfold lpMatrix
  simp only [Matrix.fromBlocks_apply₂₁, Matrix.fromBlocks_apply₂₂, Matrix.of_apply,
    Matrix.neg_apply, Fin.sum_univ_one, neg_one_mul, neg_mul]
  rw [← Finset.sum_neg_distrib]
  ring

theorem lpObj_dot {n : ℕ} (x : Fin n ⊕ Fin 1 → ℚ) : lpObj n ⬝ᵥ x = x (Sum.inr 0) := by
  have h : lpObj n ⬝ᵥ x = ∑ c, lpObj n c * x c := rfl
  rw [h, Fintype.sum_sum_type]
  unfold lpObj
  simp [Fin.sum_univ_one]

theorem abs_le_maxAbs {m : ℕ} (v : Fin m → ℚ) (i : Fin m) : |v i| ≤ maxAbs v := by
  unfold maxAbs
  rw [dif_pos i.pos]
  exact Finset.le_sup' (fun t => |v t|) (Finset.mem_univ i)

theorem maxAbs_nonneg {m : ℕ} (v : Fin m → ℚ) : 0 ≤ maxAbs v := by
  by_cases h : 0 < m
  · exact le_trans (abs_nonneg (v ⟨0, h⟩)) (abs_le_maxAbs v ⟨0, h⟩)
  · unfold maxAbs
    rw [dif_neg h]

theorem maxAbs_le {m : ℕ} (v : Fin m → ℚ) (t : ℚ) (ht : 0 ≤ t) (h : ∀ i, |v i| ≤ t) :
    maxAbs v ≤ t := by
  unfold maxAbs
  split
  · exact Finset.sup'_le _ _ (fun i _ => h i)
  · exact ht

theorem lpFeasible_resid_bound {m n : ℕ} (M : Matrix (Fin m) (Fin n) ℚ) (e : Fin m → ℚ)
    (x : Fin n ⊕ Fin 1 → ℚ) (hf : lpFeasible M e x) (i : Fin m) :
    |resid M e (lInfReturn x) i| ≤ x (Sum.inr 0) := by
  obtain ⟨hnn, hub⟩ := hf
  have h1 := hub (Sum.inl i)
  have h2 := hub (Sum.inr i)
  rw [lpMatrix_mulVec_inl] at h1
  rw [lpMatrix_mulVec_inr] at h2
  unfold lpB at h1 h2
  simp only [Sum.elim_inl, Sum.elim_inr, Pi.neg_apply] at h1 h2
  unfold resid lInfReturn
  rw [abs_le]
  have hsub : ((M *ᵥ (fun j => x (Sum.inl j))) - e) i =
      (M *ᵥ (fun j => x (Sum.inl j))) i - e i := rfl
  rw [hsub]
  constructor
  · linarith
  · linarith

/-- C2 (amended): LInfinityNorm.apply builds the linear program min t with
constraints M a - t 1 <= e and -M a - t 1 <= -e over the n + 1 unknowns
(a, t), solves it with scipy linprog -- whose documented default variable
bounds (0, None) additionally constrain a >= 0 and t >= 0 -- and returns the
first n components: the returned a minimizes max_i |(M a - e)_i| over all
componentwise-NONNEGATIVE n-vectors (not over all real vectors). -/
theorem lInf_minimax_over_nonneg {m n : ℕ} (M : Matrix (Fin m) (Fin n) ℚ)
    (e : Fin m → ℚ) (x : Fin n ⊕ Fin 1 → ℚ) (hopt : lpOptimal M e x)
    (a2 : Fin n → ℚ) (ha2 : ∀ j, 0 ≤ a2 j) :
    maxAbs (resid M e (lInfReturn x)) ≤ maxAbs (resid M e a2) := by
  obtain ⟨hfeas, hmin⟩ := hopt
  have ht0 : 0 ≤ x (Sum.inr 0) := hfeas.1 (Sum.inr 0)
  have h1 : maxAbs (resid M e (lInfReturn x)) ≤ x (Sum.inr 0) :=
    maxAbs_le _ _ ht0 (fun i => lpFeasible_resid_bound M e x hfeas i)
  have hyf : lpFeasible M e (Sum.elim a2 (fun _ => maxAbs (resid M e a2))) := by
    constructor
    · intro j
      cases j with
      | inl j => exact ha2 j
      | inr _ => exact maxAbs_nonneg _
    · intro i
      cases i with
      | inl i =>
        rw [lpMatrix_mulVec_inl]
        unfold lpB
        simp only [Sum.elim_inl, Sum.elim_inr]
        have hb := abs_le_maxAbs (resid M e a2) i
        rw [abs_le] at hb
        have hr : resid M e a2 i = (M *ᵥ a2) i - e i := rfl
        rw [hr] at hb
        have hEta : (M *ᵥ fun j => a2 j) = M *ᵥ a2 := rfl
        rw [hEta]
        linarith [hb.2]
      | inr i =>
        rw [lpMatrix_mulVec_inr]
        unfold lpB
        simp only [Sum.elim_inl, Sum.elim_inr, Pi.neg_apply]
        have hb := abs_le_maxAbs (resid M e a2) i
        rw [abs_le] at hb
        have hr : resid M e a2 i = (M *ᵥ a2) i - e i := rfl
        rw [hr] at hb
        have hEta : (M *ᵥ fun j => a2 j) = M *ᵥ a2 := rfl
        rw [hEta]
        linarith [hb.1]
  have h2 := hmin _ hyf
  rw [lpObj_dot, lpObj_dot] at h2
  simp only [Sum.elim_inr] at h2
  exact le_trans h1 h2

theorem lInf_minimax_over_nonneg_witness :
    (lpOptimal (Matrix.of fun (_ : Fin 1) (_ : Fin 1) => (1 : ℚ)) (fun _ => 2)
        (Sum.elim (fun _ => 2) (fun _ => 0)) ∧
      (∀ j : Fin 1, (0 : ℚ) ≤ (fun _ : Fin 1 => (5 : ℚ)) j)) ∧
    maxAbs (resid (Matrix.of fun (_ : Fin 1) (_ : Fin 1) => (1 : ℚ)) (fun _ => 2)
        (lInfReturn (Sum.elim (fun _ => 2) (fun _ => 0)))) ≤
      maxAbs (resid (Matrix.of fun (_ : Fin 1) (_ : Fin 1) => (1 : ℚ)) (fun _ => 2)
        (fun _ : Fin 1 => (5 : ℚ))) := by
  have hopt : lpOptimal (Matrix.of fun (_ : Fin 1) (_ : Fin 1) => (1 : ℚ)) (fun _ => 2)
      (Sum.elim (fun _ => 2) (fun _ => 0)) := by
    constructor
    · exact of_decide_eq_true (by with_unfolding_all rfl)
    · intro y hy
      rw [lpObj_dot, lpObj_dot]
      simp only [Sum.elim_inr]
      exact hy.1 (Sum.inr 0)
  refine ⟨⟨hopt, fun j => by norm_num⟩, ?_⟩
  exact lInf_minimax_over_nonneg _ _ _ hopt _ (fun j => by norm_num)

/-- C2 counterexample: with M = [[1]] and e = [-1], the optimum of the
program linprog actually solves (default bounds force a >= 0 and t >= 0) is
a = 0, t = 1 with max residual 1, while the real vector a = -1 achieves max
residual 0: the returned a does NOT minimize max_i |(M a - e)_i| over all
real n-vectors. -/
theorem lInf_nonneg_bounds_counterexample :
    lpOptimal (Matrix.of fun (_ : Fin 1) (_ : Fin 1) => (1 : ℚ)) (fun _ => -1)
      (Sum.elim (fun _ => 0) (fun _ => 1)) ∧
    maxAbs (resid (Matrix.of fun (_ : Fin 1) (_ : Fin 1) => (1 : ℚ)) (fun _ => -1)
      (lInfReturn (Sum.elim (fun _ => 0) (fun _ => 1)))) = 1 ∧
    maxAbs (resid (Matrix.of fun (_ : Fin 1) (_ : Fin 1) => (1 : ℚ)) (fun _ => -1)
      (fun _ : Fin 1 => (-1 : ℚ))) = 0 ∧
    ¬ ((1 : ℚ) ≤ 0) := by
  refine ⟨⟨of_decide_eq_true (by with_unfolding_all rfl), ?_⟩,
    of_decide_eq_true (by with_unfolding_all rfl),
    of_decide_eq_true (by with_unfolding_all rfl), by norm_num⟩
  intro y hy
  rw [lpObj_dot, lpObj_dot]
  simp only [Sum.elim_inr]
  have h1 := hy.2 (Sum.inl 0)
  rw [lpMatrix_mulVec_inl] at h1
  have hM : ((Matrix.of fun (_ : Fin 1) (_ : Fin 1) => (1 : ℚ)) *ᵥ
      (fun j => y (Sum.inl j))) 0 = y (Sum.inl 0) := by
    have h : ((Matrix.of fun (_ : Fin 1) (_ : Fin 1) => (1 : ℚ)) *ᵥ
        (fun j => y (Sum.inl j))) 0 = ∑ j, (1 : ℚ) * y (Sum.inl j) := rfl
    rw [h, Fin.sum_univ_one, one_mul]
  rw [hM] at h1
  have hB : lpB (fun _ : Fin 1 => (-1 : ℚ)) (Sum.inl 0) = -1 := rfl
  rw [hB] at h1
  have h2 := hy.1 (Sum.inl 0)
  linarith

end OrbitCorrection
